import Mathlib

set_option maxHeartbeats 1000000

namespace FilterLine

/-! # Verification of the vscode-filter-line streaming line-filter pipeline

Texts are modelled as lists of characters; a chunked stream is a list of texts.
The stream utilities (`FilterStream` and the line splitter it contains, from
`src/util.ts`) are not part of the provided sources, so they are modelled from
the spec; everything else is translated from `src/filter_base.ts`,
`src/filter_inputstring.ts` and the regex filter source. -/

abbrev Chars := List Char

/-- Modelled from the spec: the LineSplitter (`FilterStream` in the missing
`src/util.ts`) buffers a partial line across chunk boundaries, emitting each
complete line including its trailing terminator.  `splitAux buf s` consumes one
chunk `s` with carried-over partial line `buf`, returning the completed lines
and the new buffer. -/
def splitAux : Chars → Chars → (List Chars × Chars)
  | buf, [] => ([], buf)
  | buf, c :: cs =>
    if c = '\n' then
      let r := splitAux [] cs
      ((buf ++ [c]) :: r.1, r.2)
    else
      splitAux (buf ++ [c]) cs

/-- Modelled from the spec: running the splitter over an ordered chunk
sequence; on end-of-input any remaining buffered partial content is emitted as
a final line. -/
def runSplitter : Chars → List Chars → List Chars
  | buf, [] => if buf.isEmpty then [] else [buf]
  | buf, ch :: rest =>
    let p := splitAux buf ch
    p.1 ++ runSplitter p.2 rest

/-- The logical lines of a complete text: the splitter fed the text as one
chunk. -/
def logicalLines (t : Chars) : List Chars :=
  runSplitter [] [t]

/-- The trailing terminator of a line (`['\n']` or `[]`). -/
def termOf (l : Chars) : Chars :=
  if l.getLast? = some '\n' then ['\n'] else []

/-- The content of a line with its trailing terminator stripped. -/
def lineContent (l : Chars) : Chars :=
  if l.getLast? = some '\n' then l.dropLast else l

/-- Modelled from the spec: the predicate filter transform strips the
terminator, evaluates the predicate on the content, and re-appends the
terminator to emitted lines. -/
def filterTransform (pred : Chars → Bool) (ls : List Chars) : List Chars :=
  ls.filterMap (fun l =>
    if pred (lineContent l) then some (lineContent l ++ termOf l) else none)

/-- Modelled from the spec: the whole streaming pipeline on a chunked source:
split into logical lines, then keep exactly the lines whose content satisfies
the predicate. -/
def filterPipeline (pred : Chars → Bool) (chunks : List Chars) : List Chars :=
  filterTransform pred (runSplitter [] chunks)

theorem lineContent_append_termOf (l : Chars) : lineContent l ++ termOf l = l := by
  unfold lineContent termOf
  by_cases h : l.getLast? = some '\n'
  · have hne : l ≠ [] := by
      intro hl
      rw [hl] at h
      simp at h
    have hg : l.getLast hne = '\n' := by
      rw [List.getLast?_eq_getLast l hne] at h
      exact Option.some.inj h
    simp only [h, if_pos]
    rw [← hg]
    exact List.dropLast_append_getLast hne
  · simp [h]

theorem filterTransform_eq_filter (pred : Chars → Bool) (ls : List Chars) :
    filterTransform pred ls = ls.filter (fun l => pred (lineContent l)) := by
  unfold filterTransform
  simp only [lineContent_append_termOf]
  induction ls with
  | nil => rfl
  | cons l ls ih =>
    by_cases h : pred (lineContent l) <;>
      simp [List.filterMap_cons, List.filter_cons, h, ih]

theorem splitAux_append (a : Chars) :
    ∀ buf b : Chars,
      splitAux buf (a ++ b) =
        ((splitAux buf a).1 ++ (splitAux (splitAux buf a).2 b).1,
          (splitAux (splitAux buf a).2 b).2) := by
  induction a with
  | nil => intro buf b; simp [splitAux]
  | cons c cs ih =>
    intro buf b
    by_cases hc : c = '\n'
    · simp only [List.cons_append, splitAux, hc, if_pos, List.append_eq]
      rw [ih []]
    · simp only [List.cons_append, splitAux, hc, if_neg, ite_false, List.append_eq]
      rw [ih (buf ++ [c])]

theorem runSplitter_eq_single_chunk (chunks : List Chars) :
    ∀ buf : Chars, runSplitter buf chunks = runSplitter buf [chunks.flatten] := by
  induction chunks with
  | nil =>
    intro buf
    simp [runSplitter, splitAux]
  | cons ch rest ih =>
    intro buf
    show (splitAux buf ch).1 ++ runSplitter (splitAux buf ch).2 rest = _
    rw [ih (splitAux buf ch).2]
    simp only [List.flatten_cons, runSplitter, splitAux_append]
    simp [runSplitter, List.append_assoc]

/-- Claim C2: for any two ways of cutting the same logical text into chunks,
the LineSplitter yields the identical sequence of logical lines; on
end-of-input a buffered partial line without a terminator is emitted as the
final line. -/
theorem splitter_chunk_independent_and_flushes :
    (∀ c1 c2 : List Chars, c1.flatten = c2.flatten →
      runSplitter [] c1 = runSplitter [] c2) ∧
    (∀ chunks : List Chars, (splitAux [] chunks.flatten).2 ≠ [] →
      runSplitter [] chunks =
        (splitAux [] chunks.flatten).1 ++ [(splitAux [] chunks.flatten).2]) := by
  constructor
  · intro c1 c2 h
    rw [runSplitter_eq_single_chunk c1, runSplitter_eq_single_chunk c2, h]
  · intro chunks h
    rw [runSplitter_eq_single_chunk chunks]
    show (splitAux [] chunks.flatten).1 ++
        runSplitter (splitAux [] chunks.flatten).2 [] = _
    have : (splitAux [] chunks.flatten).2.isEmpty = false := by
      cases hx : (splitAux [] chunks.flatten).2 with
      | nil => exact absurd hx h
      | cons _ _ => simp
    simp [runSplitter, this]

theorem splitter_chunk_independent_and_flushes_witness :
    runSplitter [] ["ab".toList, "c\nde".toList] =
        runSplitter [] ["abc\n".toList, "de".toList] ∧
    runSplitter [] ["ab".toList, "c\nde".toList] =
      (splitAux [] ("abc\nde".toList)).1 ++ [(splitAux [] ("abc\nde".toList)).2] := by
  constructor
  · exact splitter_chunk_independent_and_flushes.1
      ["ab".toList, "c\nde".toList] ["abc\n".toList, "de".toList] (by decide)
  · have h := splitter_chunk_independent_and_flushes.2
      ["ab".toList, "c\nde".toList] (by decide)
    simpa using h

/-- Claim C1: the pipeline's output is exactly the lines of the source text
whose content satisfies the predicate (`List.filter`), independent of the
chunking, and it is a subsequence of the source lines — in particular the
relative order of the source lines is preserved and nothing is reordered. -/
theorem pipeline_output_is_ordered_filter (pred : Chars → Bool) (chunks : List Chars) :
    filterPipeline pred chunks =
        (logicalLines chunks.flatten).filter (fun l => pred (lineContent l)) ∧
      List.Sublist (filterPipeline pred chunks) (logicalLines chunks.flatten) := by
  have h : filterPipeline pred chunks =
      (logicalLines chunks.flatten).filter (fun l => pred (lineContent l)) := by
    unfold filterPipeline logicalLines
    rw [filterTransform_eq_filter, runSplitter_eq_single_chunk chunks]
  exact ⟨h, h ▸ List.filter_sublist _⟩

/-- A character list free of line terminators. -/
def noNl (l : Chars) : Bool := l.all (fun c => !(c == '\n'))

/-- A complete logical line: some terminator-free content followed by the
terminator. -/
def termLine (l : Chars) : Prop := ∃ c : Chars, l = c ++ ['\n'] ∧ noNl c

/-- Well-shaped line list: every line but the last is a complete terminated
line, and the last is either terminated or a nonempty terminator-free
remainder. -/
def linesShape : List Chars → Prop
  | [] => True
  | [l] => termLine l ∨ (l ≠ [] ∧ noNl l)
  | l :: l2 :: ls => termLine l ∧ linesShape (l2 :: ls)

theorem noNl_append (a b : Chars) (ha : noNl a) (hb : noNl b) : noNl (a ++ b) := by
  simp only [noNl, List.all_append, Bool.and_eq_true]
  exact ⟨ha, hb⟩

theorem noNl_single (c : Char) (hc : ¬ c = '\n') : noNl [c] := by
  simp [noNl, hc]

theorem splitAux_lines_term (s : Chars) :
    ∀ buf : Chars, noNl buf → ∀ l ∈ (splitAux buf s).1, termLine l := by
  induction s with
  | nil => intro buf _ l hl; simp [splitAux] at hl
  | cons c cs ih =>
    intro buf hbuf l hl
    by_cases hc : c = '\n'
    · simp only [splitAux, hc, if_pos, List.mem_cons] at hl
      rcases hl with h | h
      · exact ⟨buf, by simp [h], hbuf⟩
      · exact ih [] (by simp [noNl]) l h
    · simp only [splitAux, hc, if_neg, ite_false] at hl
      exact ih (buf ++ [c]) (noNl_append buf [c] hbuf (noNl_single c hc)) l hl

theorem splitAux_buf_noNl (s : Chars) :
    ∀ buf : Chars, noNl buf → noNl (splitAux buf s).2 := by
  induction s with
  | nil => intro buf hbuf; simpa [splitAux] using hbuf
  | cons c cs ih =>
    intro buf hbuf
    by_cases hc : c = '\n'
    · simp only [splitAux, hc, if_pos]
      exact ih [] (by simp [noNl])
    · simp only [splitAux, hc, if_neg, ite_false]
      exact ih (buf ++ [c]) (noNl_append buf [c] hbuf (noNl_single c hc))

theorem linesShape_cons (l : Chars) (t : List Chars) (hl : termLine l)
    (ht : linesShape t) : linesShape (l :: t) := by
  cases t with
  | nil => exact Or.inl hl
  | cons a as => exact ⟨hl, ht⟩

theorem linesShape_tail (l : Chars) (t : List Chars) (h : linesShape (l :: t)) :
    linesShape t := by
  cases t with
  | nil => trivial
  | cons a as => exact h.2

theorem linesShape_append (xs : List Chars) (ys : List Chars)
    (hx : ∀ l ∈ xs, termLine l) (hy : linesShape ys) : linesShape (xs ++ ys) := by
  induction xs with
  | nil => simpa using hy
  | cons l ls ih =>
    refine linesShape_cons l (ls ++ ys) (hx l (by simp)) ?_
    exact ih (fun l' hl' => hx l' (by simp [hl']))

theorem runSplitter_shape (chunks : List Chars) :
    ∀ buf : Chars, noNl buf → linesShape (runSplitter buf chunks) := by
  induction chunks with
  | nil =>
    intro buf hbuf
    by_cases h : buf.isEmpty
    · simp [runSplitter, h, linesShape]
    · have : buf ≠ [] := by
        cases buf with
        | nil => simp at h
        | cons _ _ => simp
      simp only [runSplitter, h, ite_false]
      exact Or.inr ⟨this, hbuf⟩
  | cons ch rest ih =>
    intro buf hbuf
    show linesShape ((splitAux buf ch).1 ++ runSplitter (splitAux buf ch).2 rest)
    exact linesShape_append _ _ (splitAux_lines_term ch buf hbuf)
      (ih _ (splitAux_buf_noNl ch buf hbuf))

theorem linesShape_sublist (t ls : List Chars) (hsub : List.Sublist t ls)
    (h : linesShape ls) : linesShape t := by
  induction hsub with
  | slnil => trivial
  | cons a _ ih => exact ih (linesShape_tail _ _ h)
  | @cons₂ t' ls' a hs ih =>
    cases ls' with
    | nil =>
      have : t' = [] := List.sublist_nil.mp hs
      rw [this]; exact h
    | cons b bs =>
      exact linesShape_cons a t' h.1 (ih h.2)

theorem noNl_cons_head (c : Char) (cs : Chars) (h : noNl (c :: cs)) : ¬ c = '\n' := by
  simp only [noNl, List.all_cons, Bool.and_eq_true] at h
  simpa using h.1

theorem noNl_cons_tail (c : Char) (cs : Chars) (h : noNl (c :: cs)) : noNl cs := by
  simp only [noNl, List.all_cons, Bool.and_eq_true] at h
  exact h.2

theorem splitAux_noNl_input (s : Chars) :
    ∀ buf : Chars, noNl s → splitAux buf s = ([], buf ++ s) := by
  induction s with
  | nil => intro buf _; simp [splitAux]
  | cons c cs ih =>
    intro buf hs
    have hc : ¬ c = '\n' := noNl_cons_head c cs hs
    simp only [splitAux, hc, ite_false]
    rw [ih (buf ++ [c]) (noNl_cons_tail c cs hs)]
    simp

theorem splitAux_term_prefix (c : Chars) :
    ∀ buf s : Chars, noNl c →
      splitAux buf (c ++ '\n' :: s) =
        ((buf ++ c ++ ['\n']) :: (splitAux [] s).1, (splitAux [] s).2) := by
  induction c with
  | nil => intro buf s _; simp [splitAux]
  | cons a as ih =>
    intro buf s hc
    have ha : ¬ a = '\n' := noNl_cons_head a as hc
    simp only [List.cons_append, splitAux, ha, ite_false, List.append_eq]
    rw [ih (buf ++ [a]) s (noNl_cons_tail a as hc)]
    simp

theorem resplit_of_linesShape (ls : List Chars) (h : linesShape ls) :
    runSplitter [] [ls.flatten] = ls := by
  induction ls with
  | nil => simp [runSplitter, splitAux]
  | cons l t ih =>
    cases t with
    | nil =>
      rcases h with hterm | ⟨hne, hnl⟩
      · rcases hterm with ⟨c, hc, hcn⟩
        show (splitAux [] [l].flatten).1 ++ runSplitter (splitAux [] [l].flatten).2 [] = [l]
        have : [l].flatten = c ++ '\n' :: [] := by simp [hc]
        rw [this, splitAux_term_prefix c [] [] hcn]
        simp [runSplitter, splitAux, hc]
      · show (splitAux [] [l].flatten).1 ++ runSplitter (splitAux [] [l].flatten).2 [] = [l]
        have : [l].flatten = l := by simp
        rw [this, splitAux_noNl_input l [] hnl]
        have : l.isEmpty = false := by
          cases l with
          | nil => exact absurd rfl hne
          | cons _ _ => simp
        simp [runSplitter, this]
    | cons l2 t2 =>
      rcases h.1 with ⟨c, hc, hcn⟩
      have hIH : (splitAux [] ((l2 :: t2).flatten)).1 ++
          runSplitter (splitAux [] ((l2 :: t2).flatten)).2 [] = l2 :: t2 := ih h.2
      show (splitAux [] (l :: l2 :: t2).flatten).1 ++
          runSplitter (splitAux [] (l :: l2 :: t2).flatten).2 [] = l :: l2 :: t2
      have hflat : (l :: l2 :: t2).flatten = c ++ '\n' :: (l2 :: t2).flatten := by
        simp [hc]
      rw [hflat, splitAux_term_prefix c [] ((l2 :: t2).flatten) hcn, hc]
      show (([] ++ c ++ ['\n']) :: (splitAux [] ((l2 :: t2).flatten)).1) ++
          runSplitter (splitAux [] ((l2 :: t2).flatten)).2 [] = (c ++ ['\n']) :: l2 :: t2
      rw [List.nil_append, List.cons_append, hIH]

theorem filter_self_idem (g : Chars → Bool) (ls : List Chars) :
    (ls.filter g).filter g = ls.filter g := by
  induction ls with
  | nil => rfl
  | cons l t ih =>
    by_cases h : g l <;> simp [List.filter_cons, h, ih]

/-- Claim C9: the line filter is idempotent — filtering an already-filtered
output with the same predicate, both at the level of a line list and at the
level of the full pipeline re-reading its own written-out text, changes
nothing. -/
theorem filter_idempotent :
    (∀ (pred : Chars → Bool) (ls : List Chars),
      filterTransform pred (filterTransform pred ls) = filterTransform pred ls) ∧
    (∀ (pred : Chars → Bool) (chunks : List Chars),
      filterPipeline pred [(filterPipeline pred chunks).flatten] =
        filterPipeline pred chunks) := by
  constructor
  · intro pred ls
    rw [filterTransform_eq_filter, filterTransform_eq_filter]
    exact filter_self_idem _ ls
  · intro pred chunks
    have hshape : linesShape (filterPipeline pred chunks) := by
      have h1 : linesShape (runSplitter [] chunks) :=
        runSplitter_shape chunks [] (by simp [noNl])
      have h2 : List.Sublist (filterPipeline pred chunks) (runSplitter [] chunks) := by
        unfold filterPipeline
        rw [filterTransform_eq_filter]
        exact List.filter_sublist _
      exact linesShape_sublist _ _ h2 h1
    have hout : filterPipeline pred chunks =
        (runSplitter [] chunks).filter (fun l => pred (lineContent l)) := by
      unfold filterPipeline
      rw [filterTransform_eq_filter]
    have key : filterPipeline pred [(filterPipeline pred chunks).flatten] =
        filterTransform pred (filterPipeline pred chunks) := by
      show filterTransform pred (runSplitter [] [(filterPipeline pred chunks).flatten]) = _
      rw [resplit_of_linesShape _ hshape]
    rw [key, hout, filterTransform_eq_filter]
    exact filter_self_idem _ _

/-- JavaScript `String.prototype.indexOf` search as used by
`FilterLineByInputString.matchLine`: scan for the first index at or after `i`
where `pat` occurs. -/
def indexOfFrom (pat : Chars) : Chars → Nat → Option Nat
  | [], i => if pat.isPrefixOf [] then some i else none
  | c :: rest, i =>
    if pat.isPrefixOf (c :: rest) then some i else indexOfFrom pat rest (i + 1)

/-- JS `line.indexOf(pat)`: index of the first occurrence, `-1` when absent. -/
def jsIndexOf (line pat : Chars) : Int :=
  match indexOfFrom pat line 0 with
  | some i => (i : Int)
  | none => -1

/-- Translated from `FilterLineByInputString.matchLine`
(`src/filter_inputstring.ts` lines 37-51): return the line iff it contains
(resp. with `notcontain` set, does not contain) the pattern. -/
def matchLineStr (inputstring : Option Chars) (notcontain : Bool) (line : Chars) :
    Option Chars :=
  match inputstring with
  | none => none
  | some pat =>
    if notcontain then
      if jsIndexOf line pat = -1 then some line else none
    else
      if ¬ jsIndexOf line pat = -1 then some line else none

/-- The boolean predicate induced by the substring filter's `matchLine`. -/
def strPredicate (pat : Chars) (notcontain : Bool) : Chars → Bool :=
  fun content => (matchLineStr (some pat) notcontain content).isSome

theorem indexOfFrom_none_iff (pat : Chars) :
    ∀ (s : Chars) (i : Nat), indexOfFrom pat s i = none ↔ ¬ pat <:+: s := by
  intro s
  induction s with
  | nil =>
    intro i
    by_cases h : pat.isPrefixOf ([] : Chars)
    · have hinf : pat <:+: [] :=
        (List.isPrefixOf_iff_prefix.mp h).isInfix
      simp [indexOfFrom, h, hinf]
    · have hne : ¬ pat <:+: [] := by
        intro hinf
        exact h (List.isPrefixOf_iff_prefix.mpr (List.infix_nil.mp hinf ▸ List.prefix_nil.mpr rfl))
      simp [indexOfFrom, h, hne]
  | cons c rest ih =>
    intro i
    by_cases h : pat.isPrefixOf (c :: rest)
    · have hinf : pat <:+: c :: rest :=
        (List.isPrefixOf_iff_prefix.mp h).isInfix
      simp [indexOfFrom, h, hinf]
    · have hnp : ¬ pat <+: c :: rest := fun hp => h (List.isPrefixOf_iff_prefix.mpr hp)
      simp only [indexOfFrom]
      rw [if_neg h, ih (i + 1)]
      constructor
      · intro hn hinf
        rcases List.infix_cons_iff.mp hinf with hp | hi
        · exact hnp hp
        · exact hn hi
      · intro hn hi
        exact hn (List.infix_cons_iff.mpr (Or.inr hi))

theorem jsIndexOf_ne_neg_one_iff (line pat : Chars) :
    (¬ jsIndexOf line pat = -1) ↔ pat <:+: line := by
  unfold jsIndexOf
  cases h : indexOfFrom pat line 0 with
  | none =>
    have hni : ¬ pat <:+: line := (indexOfFrom_none_iff pat line 0).mp h
    simp [hni]
  | some i =>
    have hinf : pat <:+: line := by
      by_contra hni
      rw [(indexOfFrom_none_iff pat line 0).mpr hni] at h
      exact Option.noConfusion h
    have hne : ¬ ((i : Int) = -1) := by omega
    simp [hinf, hne]

/-- Claim C3: the substring filter's `matchLine` returns the line iff the line
contains (respectively, with the not-contain polarity, does not contain) the
pattern as a substring; on the source `"apple\nbanana\ngrape\n"` with pattern
`"an"` the pipeline outputs exactly `["banana\n"]` for the contains polarity
and `["apple\n","grape\n"]` for the not-contains polarity. -/
theorem matchLine_substring_semantics :
    (∀ pat line : Chars,
      (matchLineStr (some pat) false line = some line ↔ pat <:+: line) ∧
      (matchLineStr (some pat) true line = some line ↔ ¬ pat <:+: line)) ∧
    filterPipeline (strPredicate "an".toList false) ["apple\nbanana\ngrape\n".toList] =
      ["banana\n".toList] ∧
    filterPipeline (strPredicate "an".toList true) ["apple\nbanana\ngrape\n".toList] =
      ["apple\n".toList, "grape\n".toList] := by
  refine ⟨fun pat line => ?_, by decide, by decide⟩
  constructor
  · unfold matchLineStr
    by_cases h : jsIndexOf line pat = -1
    · simp only [h, not_true_eq_false, ite_false]
      constructor
      · intro habs; exact Option.noConfusion habs
      · intro hinf
        exact absurd h ((jsIndexOf_ne_neg_one_iff line pat).mpr hinf)
    · simp only [h, not_false_eq_true, ite_true]
      simp [(jsIndexOf_ne_neg_one_iff line pat).mp h]
  · unfold matchLineStr
    by_cases h : jsIndexOf line pat = -1
    · have hni : ¬ pat <:+: line :=
        fun hinf => ((jsIndexOf_ne_neg_one_iff line pat).mpr hinf) h
      simp [h, hni]
    · simp only [h, ite_false]
      constructor
      · intro habs; exact Option.noConfusion habs
      · intro hni
        exact absurd ((jsIndexOf_ne_neg_one_iff line pat).mp h) hni

/-! ## Source reading (`Filter.createInputStream`, `src/filter_base.ts` lines 59-81) -/

/-- A live in-memory document as the model needs it: only its dirty flag
matters to `createInputStream`. -/
structure TextDoc where
  isDirty : Bool
deriving DecidableEq

/-- Where the pipeline's input characters come from. -/
inductive StreamSrc where
  | docStream
  | diskStream
deriving DecidableEq

/-- Translated from `Filter.createInputStream` (`src/filter_base.ts` lines
59-77): for a `file`-scheme source a dirty opened document wins over the disk
copy; for a non-file source an opened document is mandatory and its absence
throws. `openedDoc` is the result of `findOpenedDoc` (line 79-81). -/
def createInputStream (isFileScheme : Bool) (openedDoc : Option TextDoc) :
    Except String StreamSrc :=
  if isFileScheme then
    match openedDoc with
    | some doc => if doc.isDirty then .ok .docStream else .ok .diskStream
    | none => .ok .diskStream
  else
    match openedDoc with
    | none => .error "TextDocument not found"
    | some _ => .ok .docStream

/-- Claim C5: for on-disk sources a dirty opened document is read in
preference to the disk; otherwise the disk is read; non-file sources require
an opened document, whose absence aborts with the source-not-found error. -/
theorem createInputStream_source_policy :
    (∀ doc : TextDoc, doc.isDirty = true →
      createInputStream true (some doc) = .ok .docStream) ∧
    (∀ doc : TextDoc, doc.isDirty = false →
      createInputStream true (some doc) = .ok .diskStream) ∧
    (createInputStream true none = .ok .diskStream) ∧
    (createInputStream false none = .error "TextDocument not found") ∧
    (∀ doc : TextDoc, createInputStream false (some doc) = .ok .docStream) := by
  refine ⟨fun doc h => ?_, fun doc h => ?_, rfl, rfl, fun doc => rfl⟩
  · simp [createInputStream, h]
  · simp [createInputStream, h]

theorem createInputStream_source_policy_witness :
    createInputStream true (some ⟨true⟩) = .ok .docStream ∧
    createInputStream true (some ⟨false⟩) = .ok .diskStream := by
  exact ⟨createInputStream_source_policy.1 ⟨true⟩ rfl,
    createInputStream_source_policy.2.1 ⟨false⟩ rfl⟩

/-! ## Result placement (`FilterLineBase.filter_`, `src/filter_base.ts` lines 188-251) -/

/-- `LARGE_MODE_THR` from `src/filter_base.ts` line 88: 30 MiB. -/
def LARGE_MODE_THR : Nat := 30 * 1024 * 1024

/-- Severity of a user-visible message (`showInfo` / `showWarning` /
`showError` in `src/filter_base.ts` lines 159-171). -/
inductive Severity where
  | info
  | warning
  | error
deriving DecidableEq

/-- Outcome of the chunk-by-chunk insertion loop into the fresh editor buffer
(`src/filter_base.ts` lines 227-241): it finishes, the host reports the editor
disposed (`e.name === 'DISPOSED'`), or it fails some other way. -/
inductive InsertLoopOutcome where
  | finished
  | disposed
  | otherFailure
deriving DecidableEq

/-- The environment one run of `filter_` observes. -/
structure PlaceEnv where
  isFileScheme : Bool
  saveFlag : Bool
  size : Nat
  moveSucceeds : Bool
  editorOpens : Bool
  insertLoop : InsertLoopOutcome
deriving DecidableEq

/-- The externally observable result of one run of `filter_`. -/
structure PlaceResult where
  dstIsTemp : Bool
  streamedIntoEditor : Bool
  tempDeleted : Bool
  openedDocForViewing : Bool
  messages : List (Severity × String)
deriving DecidableEq

/-- Translated from `FilterLineBase.filter_` (`src/filter_base.ts` lines
188-251), after the pipeline has produced the temp file: decide where the
result ends up and which notifications are shown.  The `Except.error` case is
the `throw Error('Text Editor does not open')` at line 220, which aborts the
run before the completion notice. -/
def filterPlace (env : PlaceEnv) : Except String PlaceResult :=
  let largeModeFlag := decide (env.size > LARGE_MODE_THR)
  if env.saveFlag then
    if ¬ env.isFileScheme then
      .ok { dstIsTemp := true, streamedIntoEditor := false, tempDeleted := false,
            openedDocForViewing := true,
            messages := [(Severity.warning,
              "Don't know where to save file. Saved into temporary folder"),
              (Severity.info, "Filtering completed :)")] }
    else if env.moveSucceeds then
      .ok { dstIsTemp := false, streamedIntoEditor := false, tempDeleted := false,
            openedDocForViewing := true,
            messages := [(Severity.info, "Filtering completed :)")] }
    else
      .ok { dstIsTemp := true, streamedIntoEditor := false, tempDeleted := false,
            openedDocForViewing := true,
            messages := [(Severity.error,
              "Error occurred on save file to origin folder. Saved into temporary folder"),
              (Severity.info, "Filtering completed :)")] }
  else
    if largeModeFlag then
      .ok { dstIsTemp := true, streamedIntoEditor := false, tempDeleted := false,
            openedDocForViewing := true,
            messages := [(Severity.warning,
              "Filtered content is larger then Visual Studio Code limitations. Saved into temporary folder"),
              (Severity.info, "Filtering completed :)")] }
    else if ¬ env.editorOpens then
      .error "Text Editor does not open"
    else
      match env.insertLoop with
      | .finished =>
        .ok { dstIsTemp := true, streamedIntoEditor := true, tempDeleted := true,
              openedDocForViewing := false,
              messages := [(Severity.info, "Filtering completed :)")] }
      | .disposed =>
        .ok { dstIsTemp := true, streamedIntoEditor := true, tempDeleted := false,
              openedDocForViewing := false,
              messages := [(Severity.info, "Filtering completed :)")] }
      | .otherFailure =>
        .ok { dstIsTemp := true, streamedIntoEditor := true, tempDeleted := false,
              openedDocForViewing := true,
              messages := [(Severity.info, "Filtering completed :)")] }

/-- A warning-severity notification appears among the run's messages. -/
def warningSurfaced (r : PlaceResult) : Bool :=
  r.messages.any (fun m => m.1 = Severity.warning)

/-- An error-severity notification appears among the run's messages. -/
def errorSurfaced (r : PlaceResult) : Bool :=
  r.messages.any (fun m => m.1 = Severity.error)

/-- The completion notice of `src/filter_base.ts` line 250 was shown. -/
def completionShown (r : PlaceResult) : Bool :=
  r.messages.any (fun m => m = (Severity.info, "Filtering completed :)"))

/-- Claim C4: with `saveAfterFiltering = false` and an output strictly larger
than 30 MiB, the run keeps the temp file, surfaces a warning, opens the temp
file for viewing, and never streams the content into a live editor buffer. -/
theorem large_output_kept_as_temp (env : PlaceEnv)
    (hsave : env.saveFlag = false) (hsize : env.size > 30 * 1024 * 1024) :
    filterPlace env =
      .ok { dstIsTemp := true, streamedIntoEditor := false, tempDeleted := false,
            openedDocForViewing := true,
            messages := [(Severity.warning,
              "Filtered content is larger then Visual Studio Code limitations. Saved into temporary folder"),
              (Severity.info, "Filtering completed :)")] } := by
  unfold filterPlace
  have hl : decide (env.size > LARGE_MODE_THR) = true := by
    simp [LARGE_MODE_THR]
    omega
  simp [hsave, hl]

theorem large_output_kept_as_temp_witness :
    filterPlace ⟨true, false, 30 * 1024 * 1024 + 1, true, true, .finished⟩ =
      .ok { dstIsTemp := true, streamedIntoEditor := false, tempDeleted := false,
            openedDocForViewing := true,
            messages := [(Severity.warning,
              "Filtered content is larger then Visual Studio Code limitations. Saved into temporary folder"),
              (Severity.info, "Filtering completed :)")] } :=
  large_output_kept_as_temp _ rfl (by decide)

/-- The concrete run environment of claim C7's scenario: `saveAfterFiltering`
on, disk-path source, move to the source's directory fails. -/
def moveFailEnv : PlaceEnv :=
  ⟨true, true, 0, false, true, .finished⟩

/-- Claim C7, counterexample: in the move-failure scenario the temp file is
retained and completion is reported, but the surfaced notification has error
severity, not warning severity — no warning is surfaced, contrary to the
claim. -/
theorem move_failure_shows_no_warning :
    (filterPlace moveFailEnv).map
        (fun r => (r.dstIsTemp, warningSurfaced r, errorSurfaced r, completionShown r)) =
      .ok (true, false, true, true) := by
  rfl

/-- Claim C7 (amended): with `saveAfterFiltering = true`, a disk-path source
and a failing move, the temporary file is retained as the result, an
error-severity notification (not a warning) is surfaced, the temp file is
opened for viewing, and the run still reports overall completion. -/
theorem move_failure_retains_temp_and_completes (env : PlaceEnv)
    (hsave : env.saveFlag = true) (hfile : env.isFileScheme = true)
    (hmove : env.moveSucceeds = false) :
    filterPlace env =
      .ok { dstIsTemp := true, streamedIntoEditor := false, tempDeleted := false,
            openedDocForViewing := true,
            messages := [(Severity.error,
              "Error occurred on save file to origin folder. Saved into temporary folder"),
              (Severity.info, "Filtering completed :)")] } := by
  unfold filterPlace
  simp [hsave, hfile, hmove]

theorem move_failure_retains_temp_and_completes_witness :
    filterPlace ⟨true, true, 5, false, false, .disposed⟩ =
      .ok { dstIsTemp := true, streamedIntoEditor := false, tempDeleted := false,
            openedDocForViewing := true,
            messages := [(Severity.error,
              "Error occurred on save file to origin folder. Saved into temporary folder"),
              (Severity.info, "Filtering completed :)")] } :=
  move_failure_retains_temp_and_completes _ rfl rfl rfl

/-! ## Pattern preparation and command control flow
(`FilterLineBase.filter` lines 261-278, `FilterLineByInputString.prepare`
lines 21-35, `FilterLineByInputRegex.prepare` lines 21-40) -/

/-- Translated from `FilterLineBase.addToHistory` (`src/filter_base.ts` lines
110-130) for an existing history key: truncate to the configured maximum when
full, then move (or insert) the new element to the front. -/
def addToHistory (maxSz : Nat) (hist : List Chars) (newEl : Chars) : List Chars :=
  let h := if hist.length ≥ maxSz then hist.take maxSz else hist
  if newEl ∈ h then newEl :: h.erase newEl else newEl :: h

/-- What a `prepare` callback run communicates: the boolean handed to the
callback, whether an error message was surfaced, and the pattern history it
leaves behind. -/
structure PrepResult where
  succeed : Bool
  errorShown : Bool
  histAfter : List Chars
deriving DecidableEq

/-- Translated from `FilterLineByInputString.prepare`
(`src/filter_inputstring.ts` lines 21-35): an empty pick fails the callback
and changes nothing; otherwise the pattern is added to the history and the
callback succeeds. -/
def prepareInputString (usrChoice : Chars) (maxSz : Nat) (hist : List Chars) :
    PrepResult :=
  if usrChoice = [] then ⟨false, false, hist⟩
  else ⟨true, false, addToHistory maxSz hist usrChoice⟩

/-- Translated from `FilterLineByInputRegex.prepare` (regex filter source
lines 21-40).  `compileResult` stands for the outcome of `new
RegExp(usrChoice)`: `Except.error` models the exception a syntactically
invalid pattern raises. -/
def prepareInputRegex (usrChoice : Chars) (compileResult : Except String Unit)
    (maxSz : Nat) (hist : List Chars) : PrepResult :=
  if usrChoice = [] then ⟨false, false, hist⟩
  else
    match compileResult with
    | .error _ => ⟨false, true, hist⟩
    | .ok _ => ⟨true, false, addToHistory maxSz hist usrChoice⟩

/-- Observable outcome of one invocation of `FilterLineBase.filter` after the
source has been resolved. -/
structure RunResult where
  pipelineStarted : Bool
  tempCreated : Bool
  errorShown : Bool
  histAfter : List Chars
deriving DecidableEq

/-- Translated from `FilterLineBase.filter` (`src/filter_base.ts` lines
261-278) with the source already resolved: when `prepare` reports failure the
callback returns before `filter_`, so the pipeline never starts and no temp
file is created; otherwise `filter_` runs the pipeline, which creates the temp
output file. -/
def runFilterCommand (prep : PrepResult) : RunResult :=
  if prep.succeed then ⟨true, true, prep.errorShown, prep.histAfter⟩
  else ⟨false, false, prep.errorShown, prep.histAfter⟩

/-- Claim C6: a syntactically invalid regex (modelled by `new RegExp`
raising) aborts the run during predicate construction — an error is surfaced,
the pipeline is never started and no temporary file is created, with the
history left untouched. -/
theorem invalid_regex_aborts_before_pipeline (usrChoice : Chars) (e : String)
    (maxSz : Nat) (hist : List Chars) (hne : usrChoice ≠ []) :
    prepareInputRegex usrChoice (.error e) maxSz hist = ⟨false, true, hist⟩ ∧
    runFilterCommand (prepareInputRegex usrChoice (.error e) maxSz hist) =
      ⟨false, false, true, hist⟩ := by
  have hp : prepareInputRegex usrChoice (.error e) maxSz hist = ⟨false, true, hist⟩ := by
    unfold prepareInputRegex
    simp [hne]
  exact ⟨hp, by rw [hp]; rfl⟩

theorem invalid_regex_aborts_before_pipeline_witness :
    runFilterCommand (prepareInputRegex "(".toList
        (.error "Invalid regular expression: missing )") 10 []) =
      ⟨false, false, true, []⟩ :=
  (invalid_regex_aborts_before_pipeline "(".toList
    "Invalid regular expression: missing )" 10 [] (by decide)).2

/-- Claim C10: an empty submitted pattern makes `prepare` report failure
without surfacing an error, the filtering pipeline is never run, no temporary
file is created, and the pattern history is left unchanged — for both the
substring filter and the regex filter. -/
theorem empty_pattern_never_runs (maxSz : Nat) (hist : List Chars)
    (compileResult : Except String Unit) :
    prepareInputString [] maxSz hist = ⟨false, false, hist⟩ ∧
    prepareInputRegex [] compileResult maxSz hist = ⟨false, false, hist⟩ ∧
    runFilterCommand (prepareInputString [] maxSz hist) = ⟨false, false, false, hist⟩ ∧
    runFilterCommand (prepareInputRegex [] compileResult maxSz hist) =
      ⟨false, false, false, hist⟩ := by
  refine ⟨rfl, rfl, rfl, rfl⟩

/-! ## Temp-file naming (`Filter.process`, `src/filter_base.ts` lines 36-57,
and the move destination of `filter_`, lines 199-206) -/

/-- A character list containing no occurrence of `sep`. -/
def freeOf (sep : Char) (l : Chars) : Bool := l.all (fun c => !(c == sep))

/-- JS `String.prototype.split` with a one-character separator. -/
def splitOnChar (sep : Char) : Chars → List Chars
  | [] => [[]]
  | c :: cs =>
    match splitOnChar sep cs with
    | [] => [[]]
    | h :: t => if c = sep then [] :: h :: t else (c :: h) :: t

/-- JS `Array.prototype.join` with a one-character separator. -/
def joinWithChar (sep : Char) : List Chars → Chars
  | [] => []
  | [x] => x
  | x :: y :: t => x ++ sep :: joinWithChar sep (y :: t)

/-- The final path segment: JS `p.split(sep).slice(-1)[0]` with `/` as the
path separator. -/
def lastComp (p : Chars) : Chars := ((splitOnChar '/' p).getLast?).getD []

/-- Helper for `extname`: scan the reversed basename for the last dot; a dot
that is the first character of the basename yields no extension. -/
def extRevAux (acc : Chars) : Chars → Chars
  | [] => []
  | c :: rest =>
    if c = '.' then (if rest = [] then [] else '.' :: acc)
    else extRevAux (c :: acc) rest

/-- Node's `path.extname` on a posix-style path (principal rule: suffix from
the last dot of the basename, empty when there is no dot or the only dot
starts the basename). -/
def extname (p : Chars) : Chars := extRevAux [] (lastComp p).reverse

/-- `Filter.TAIL` (`src/filter_base.ts` line 29). -/
def TAIL : Chars := "filterline".toList

/-- The disk-source output base of `Filter.process` line 44:
`fsPath.split(sep).slice(-1)[0].split('.').slice(0, -1).join('.')`. -/
def codeBaseFile (uriPath : Chars) : Chars :=
  joinWithChar '.' ((splitOnChar '.' (lastComp uriPath)).dropLast)

/-- Translated from `Filter.process` (`src/filter_base.ts` lines 36-48): the
generated temp file name `<base>.filterline-<timestamp><ext>`. -/
def codeTempOutName (isFileScheme : Bool) (uriPath ts : Chars) : Chars :=
  let ext0 := extname uriPath
  if isFileScheme then
    codeBaseFile uriPath ++ '.' :: TAIL ++ '-' :: ts ++ ext0
  else
    uriPath ++ '.' :: TAIL ++ '-' :: ts ++ (if ext0 = [] then ".txt".toList else ext0)

/-- The full temp output path: the generated name inside the OS temp
directory (`src/filter_base.ts` line 48). -/
def codeTempOutPath (tmpDir : Chars) (isFileScheme : Bool) (uriPath ts : Chars) : Chars :=
  tmpDir ++ '/' :: codeTempOutName isFileScheme uriPath ts

/-- The naming rule as the spec words it: for disk sources the base is the
source base name without its extension (the final segment minus the `extname`
suffix); non-file sources use the raw path with the extension defaulting to
`.txt`. -/
def specTempOutName (isFileScheme : Bool) (uriPath ts : Chars) : Chars :=
  let ext0 := extname uriPath
  if isFileScheme then
    let b := lastComp uriPath
    b.take (b.length - ext0.length) ++ '.' :: TAIL ++ '-' :: ts ++ ext0
  else
    uriPath ++ '.' :: TAIL ++ '-' :: ts ++ (if ext0 = [] then ".txt".toList else ext0)

/-- Translated from `FilterLineBase.filter_` lines 203-204: the save
destination is the source's directory joined with the temp file's final path
segment. -/
def adjacentDstPath (srcFsPath tmpFsPath : Chars) : Chars :=
  joinWithChar '/' ((splitOnChar '/' srcFsPath).dropLast) ++ '/' :: lastComp tmpFsPath

theorem freeOf_cons_head (sep c : Char) (cs : Chars) (h : freeOf sep (c :: cs)) :
    ¬ c = sep := by
  simp only [freeOf, List.all_cons, Bool.and_eq_true] at h
  simpa using h.1

theorem freeOf_cons_tail (sep c : Char) (cs : Chars) (h : freeOf sep (c :: cs)) :
    freeOf sep cs := by
  simp only [freeOf, List.all_cons, Bool.and_eq_true] at h
  exact h.2

theorem splitOnChar_ne_nil (sep : Char) (s : Chars) : splitOnChar sep s ≠ [] := by
  cases s with
  | nil => simp [splitOnChar]
  | cons c cs =>
    unfold splitOnChar
    cases h : splitOnChar sep cs with
    | nil => simp
    | cons h0 t0 => by_cases hc : c = sep <;> simp [hc]

theorem splitOnChar_append_sep (sep : Char) (y : Chars) :
    ∀ x : Chars, splitOnChar sep (x ++ sep :: y) =
      splitOnChar sep x ++ splitOnChar sep y := by
  intro x
  induction x with
  | nil =>
    show splitOnChar sep (sep :: y) = [[]] ++ splitOnChar sep y
    cases h : splitOnChar sep y with
    | nil => exact absurd h (splitOnChar_ne_nil sep y)
    | cons h0 t0 =>
      simp only [splitOnChar, h]
      simp
  | cons c cs ih =>
    show splitOnChar sep (c :: (cs ++ sep :: y)) = _
    cases h : splitOnChar sep cs with
    | nil => exact absurd h (splitOnChar_ne_nil sep cs)
    | cons h0 t0 =>
      simp only [splitOnChar, ih, h, List.cons_append]
      by_cases hc : c = sep <;> simp [hc]

theorem splitOnChar_freeOf (sep : Char) (s : Chars) (h : freeOf sep s) :
    splitOnChar sep s = [s] := by
  induction s with
  | nil => rfl
  | cons c cs ih =>
    have hc := freeOf_cons_head sep c cs h
    unfold splitOnChar
    rw [ih (freeOf_cons_tail sep c cs h)]
    simp [hc]

theorem joinWithChar_splitOnChar (sep : Char) (s : Chars) :
    joinWithChar sep (splitOnChar sep s) = s := by
  induction s with
  | nil => rfl
  | cons c cs ih =>
    unfold splitOnChar
    cases h : splitOnChar sep cs with
    | nil => exact absurd h (splitOnChar_ne_nil sep cs)
    | cons h0 t0 =>
      rw [h] at ih
      by_cases hc : c = sep
      · simp only [hc, if_pos]
        show [] ++ sep :: joinWithChar sep (h0 :: t0) = sep :: cs
        rw [List.nil_append, ih]
      · simp only [hc, ite_false]
        cases t0 with
        | nil =>
          have hcs : h0 = cs := ih
          show c :: h0 = c :: cs
          rw [hcs]
        | cons y t1 =>
          show (c :: h0) ++ sep :: joinWithChar sep (y :: t1) = c :: cs
          rw [List.cons_append]
          have : h0 ++ sep :: joinWithChar sep (y :: t1) = cs := ih
          rw [this]

theorem mem_splitOnChar_freeOf (sep : Char) (s : Chars) :
    ∀ x ∈ splitOnChar sep s, freeOf sep x := by
  induction s with
  | nil =>
    intro x hx
    simp only [splitOnChar, List.mem_singleton] at hx
    simp [hx, freeOf]
  | cons c cs ih =>
    intro x hx
    unfold splitOnChar at hx
    cases h : splitOnChar sep cs with
    | nil => exact absurd h (splitOnChar_ne_nil sep cs)
    | cons h0 t0 =>
      rw [h] at hx
      have hx' : x ∈ (if c = sep then [] :: h0 :: t0 else (c :: h0) :: t0) := hx
      by_cases hc : c = sep
      · rw [if_pos hc] at hx'
        rcases List.mem_cons.mp hx' with h1 | h1
        · simp [h1, freeOf]
        · exact ih x (by rw [h]; exact h1)
      · rw [if_neg hc] at hx'
        rcases List.mem_cons.mp hx' with h1 | h1
        · have hh0 : freeOf sep h0 := ih h0 (by rw [h]; exact List.mem_cons_self h0 t0)
          rw [h1]
          simp only [freeOf, List.all_cons, Bool.and_eq_true]
          exact ⟨by simp [hc], hh0⟩
        · exact ih x (by rw [h]; exact List.mem_cons_of_mem h0 h1)

theorem lastComp_append_sep (x y : Chars) : lastComp (x ++ '/' :: y) = lastComp y := by
  unfold lastComp
  rw [splitOnChar_append_sep '/' y x,
    List.getLast?_append_of_ne_nil _ (splitOnChar_ne_nil '/' y)]

theorem lastComp_freeOf (p : Chars) : freeOf '/' (lastComp p) := by
  unfold lastComp
  cases h : (splitOnChar '/' p).getLast? with
  | none => simp [freeOf]
  | some x =>
    have hx : x ∈ splitOnChar '/' p := List.mem_of_getLast?_eq_some h
    simpa using mem_splitOnChar_freeOf '/' p x hx

theorem lastComp_of_freeOf (y : Chars) (h : freeOf '/' y) : lastComp y = y := by
  unfold lastComp
  rw [splitOnChar_freeOf '/' y h]
  rfl

theorem extRevAux_scan :
    ∀ (r : Chars) (a w : Chars), freeOf '.' r →
      extRevAux a (r ++ '.' :: w) =
        if w = [] then [] else '.' :: (r.reverse ++ a) := by
  intro r
  induction r with
  | nil => intro a w _; simp [extRevAux]
  | cons c cr ih =>
    intro a w hfree
    have hc : ¬ c = '.' := freeOf_cons_head '.' c cr hfree
    show extRevAux a (c :: (cr ++ '.' :: w)) = _
    unfold extRevAux
    rw [if_neg hc, ih (c :: a) w (freeOf_cons_tail '.' c cr hfree)]
    by_cases hw : w = []
    · simp [hw]
    · simp [hw, List.append_assoc]

theorem extname_of_decomp (pre acc : Chars) (hpre : pre ≠ []) (hacc : freeOf '.' acc) :
    extRevAux [] ((pre ++ '.' :: acc).reverse) = '.' :: acc := by
  have hrev : (pre ++ '.' :: acc).reverse = acc.reverse ++ '.' :: pre.reverse := by
    rw [List.reverse_append]
    simp
  rw [hrev]
  have haccrev : freeOf '.' acc.reverse := by
    simpa [freeOf, List.all_reverse] using hacc
  rw [extRevAux_scan acc.reverse [] pre.reverse haccrev]
  have : ¬ pre.reverse = [] := by
    simpa [List.reverse_eq_nil_iff] using hpre
  simp [this]

theorem codeBase_of_decomp (pre acc : Chars) (hacc : freeOf '.' acc) :
    joinWithChar '.' ((splitOnChar '.' (pre ++ '.' :: acc)).dropLast) = pre := by
  rw [splitOnChar_append_sep '.' acc pre, splitOnChar_freeOf '.' acc hacc,
    List.dropLast_concat, joinWithChar_splitOnChar]

/-- The disk-source path of claim C8's counterexample: a file name with no
dot at all. -/
def dotlessPath : Chars := "/var/log/file".toList

/-- Claim C8, counterexample: for the dotless disk source `/var/log/file` the
code's generated name is `.filterline-1234` (the base-name computation drops
the whole dotless segment), while the spec's `<base> = base name without
extension` gives `file.filterline-1234`. -/
theorem temp_name_differs_on_dotless_source :
    codeTempOutName true dotlessPath "1234".toList ≠
        specTempOutName true dotlessPath "1234".toList ∧
      codeTempOutName true dotlessPath "1234".toList = ".filterline-1234".toList ∧
      specTempOutName true dotlessPath "1234".toList = "file.filterline-1234".toList := by
  refine ⟨by decide, by decide, by decide⟩

/-- Claim C8 (amended): the temp name is `<base>.filterline-<ts><ext>` inside
the OS temp directory, where for disk sources `<base>` is the final path
segment with its last dot-suffix dropped — which equals the spec's "base name
without extension" whenever the segment has an extension (a dot after its
first character), and is empty for a dotless segment — and for non-file
sources the raw path with `<ext>` defaulting to `.txt`; a saved file moved
next to the source reuses exactly the generated final path segment. -/
theorem temp_name_convention (uriPath ts tmpDir pre acc src tmp : Chars)
    (hb : lastComp uriPath = pre ++ '.' :: acc)
    (hpre : pre ≠ []) (hacc : freeOf '.' acc) :
    codeTempOutPath tmpDir true uriPath ts =
        tmpDir ++ '/' :: (codeBaseFile uriPath ++ '.' :: TAIL ++ '-' :: ts ++ extname uriPath) ∧
    codeTempOutName true uriPath ts = specTempOutName true uriPath ts ∧
    codeTempOutName false uriPath ts = specTempOutName false uriPath ts ∧
    lastComp (adjacentDstPath src tmp) = lastComp tmp := by
  have hext : extname uriPath = '.' :: acc := by
    unfold extname
    rw [hb]
    exact extname_of_decomp pre acc hpre hacc
  refine ⟨rfl, ?_, rfl, ?_⟩
  · unfold codeTempOutName specTempOutName codeBaseFile
    simp only [hext, hb, eq_self_iff_true, if_true]
    rw [codeBase_of_decomp pre acc hacc]
    have hlen : (pre ++ '.' :: acc).length - ('.' :: acc).length = pre.length := by
      simp
    rw [hlen, List.take_left]
  · unfold adjacentDstPath
    rw [lastComp_append_sep, lastComp_of_freeOf _ (lastComp_freeOf tmp)]

theorem temp_name_convention_witness :
    lastComp "/var/log/app.txt".toList = "app".toList ++ '.' :: "txt".toList ∧
    codeTempOutName true "/var/log/app.txt".toList "99".toList =
        specTempOutName true "/var/log/app.txt".toList "99".toList ∧
    lastComp (adjacentDstPath "/a/b.txt".toList "/tmp/b.filterline-1.txt".toList) =
        lastComp "/tmp/b.filterline-1.txt".toList := by
  have h := temp_name_convention "/var/log/app.txt".toList "99".toList
    "/tmp".toList "app".toList "txt".toList
    "/a/b.txt".toList "/tmp/b.filterline-1.txt".toList
    (by decide) (by decide) (by decide)
  exact ⟨by decide, h.2.1, h.2.2.2⟩

end FilterLine
